import Mathlib

/-!
Verification of the markdown segmentation and metadata-merging engine of
`importmds.py` (extension-meilisearch).

The engine (`process_file`) walks the top-level nodes of a parsed markdown
document, splits it into items at level-1 heading boundaries, merges metadata
from the document front matter and from embedded fenced `toml`/`yaml`
`metadata` blocks, and renders each item's title and body back to markdown.

External collaborators (the `toml`/`yaml` parsers and the marko renderer for
inline titles and block bodies) are modelled as parameters packaged in
`MdCtx`.  Fallible external parsers return `Except`; a raised Python
exception is modelled by the `Except.error` result of `process_file`.
-/

set_option autoImplicit false

namespace Meili

/-- Metadata values: scalars, arrays and nested mappings, as parsed from
YAML front matter or embedded TOML/YAML blocks. -/
inductive Value where
  | vstr (s : String)
  | vnum (n : Int)
  | varr (xs : List Value)
  | vmap (m : List (String × Value))

/-- A metadata mapping (Python `dict`), modelled as an association list
whose lookup returns the first matching key. -/
abbrev Metadata := List (String × Value)

/-- Lookup of a key in a metadata mapping (first match). -/
def mlookup (k : String) : Metadata → Option Value
  | [] => none
  | (k', v) :: rest => if k' == k then some v else mlookup k rest

/-- Embedding of Python `old.update(new)` on dicts: every key of `new`
overwrites any same-named key of `old`; keys only in `old` are preserved;
values are replaced wholesale (shallow merge). -/
def mupdate (old new : Metadata) : Metadata :=
  old.filter (fun p => (mlookup p.1 new).isNone) ++ new

/-- A top-level block node of the parsed markdown document, as inspected by
`process_file`: level-1 headings and fenced code blocks are examined, all
other blocks pass through opaquely.  A heading's inline children are carried
as their source text; a fenced code block carries its info-string language,
the extra info-string tag, and its raw text (`node.children[0].children`). -/
inductive Node where
  | heading (level : Nat) (inline : String)
  | fencedCode (lang : String) (extra : String) (raw : String)
  | other (content : String)

/-- The external collaborators used by `process_file`: the `toml.loads` and
`yaml.safe_load` parsers, and the marko `MarkdownRenderer` applied to a
heading's inline children (`items_to_md md node.children`) and to a list of
body nodes (`items_to_md md body`). -/
structure MdCtx where
  parseToml : String → Except String Metadata
  parseYaml : String → Except String Metadata
  renderInline : String → String
  renderBlocks : List Node → String

/-- One segmented entry: rendered title, rendered body, metadata.  The
metadata field is an `Option` because the Python local starts as `None`. -/
structure Item where
  title : String
  body : String
  metadata : Option Metadata

/-- The mutable loop state of `process_file`: accumulated items and the
current `title`, `metadata` and `body` locals. -/
structure SegState where
  items : List Item
  title : Option String
  metadata : Option Metadata
  body : List Node

/-- Errors `process_file` can raise: a TOML/YAML parse error from an
embedded metadata block, or the `AttributeError` from calling `.update`
on the unset (`None`) metadata local. -/
inductive PErr where
  | metadataParse (msg : String)
  | noneMetadata
  deriving DecidableEq

/-- Python truthiness of the `title` local (`if title:`): `None` and the
empty string are falsy. -/
def truthyTitle : Option String → Bool
  | none => false
  | some s => !s.isEmpty

/-- The flush step of `process_file` (lines 79-81 and 102-104): if `title`
is truthy, append `Item(title, items_to_md(md, body), metadata)`. -/
def flush (ctx : MdCtx) (s : SegState) : List Item :=
  if truthyTitle s.title then
    s.items ++ [{ title := s.title.getD "", body := ctx.renderBlocks s.body,
                  metadata := s.metadata }]
  else s.items

/-- One iteration of the `for node in doc.children` loop of `process_file`. -/
def stepNode (ctx : MdCtx) (base : Metadata) (s : SegState) : Node → Except PErr SegState
  | Node.heading 1 inline =>
      Except.ok { items := flush ctx s, title := some (ctx.renderInline inline),
                  metadata := some base, body := [] }
  | Node.fencedCode lang extra raw =>
      if lang == "toml" && extra == "metadata" then
        match s.metadata with
        | none => Except.error PErr.noneMetadata
        | some old =>
          match ctx.parseToml raw with
          | Except.error e => Except.error (PErr.metadataParse e)
          | Except.ok m => Except.ok { s with metadata := some (mupdate old m) }
      else if lang == "yaml" && extra == "metadata" then
        match s.metadata with
        | none => Except.error PErr.noneMetadata
        | some old =>
          match ctx.parseYaml raw with
          | Except.error e => Except.error (PErr.metadataParse e)
          | Except.ok m => Except.ok { s with metadata := some (mupdate old m) }
      else Except.ok { s with body := s.body ++ [Node.fencedCode lang extra raw] }
  | n => Except.ok { s with body := s.body ++ [n] }

/-- The whole `for` loop of `process_file`, threading the state. -/
def processNodes (ctx : MdCtx) (base : Metadata) : SegState → List Node → Except PErr SegState
  | s, [] => Except.ok s
  | s, n :: ns =>
    match stepNode ctx base s n with
    | Except.error e => Except.error e
    | Except.ok s' => processNodes ctx base s' ns

/-- The initial loop state of `process_file`: `items = []`, `title = None`,
`metadata = None`, `body = []`. -/
def initSeg : SegState :=
  { items := [], title := none, metadata := none, body := [] }

/-- Run the loop from a given state and perform the final flush. -/
def runFrom (ctx : MdCtx) (base : Metadata) (s : SegState) (nodes : List Node) :
    Except PErr (List Item) :=
  match processNodes ctx base s nodes with
  | Except.error e => Except.error e
  | Except.ok s' => Except.ok (flush ctx s')

/-- Embedding of `process_file` (lines 67-106), taking the base (front
matter) metadata and the parsed top-level node sequence as inputs. -/
def process_file (ctx : MdCtx) (base : Metadata) (nodes : List Node) :
    Except PErr (List Item) :=
  runFrom ctx base initSeg nodes

/-- Whether a node is a level-1 heading (a segmentation boundary). -/
def isH1 : Node → Bool
  | Node.heading 1 _ => true
  | _ => false

/-- Whether a node is an embedded fenced metadata block, i.e. a fenced code
block whose language is `toml` or `yaml` and whose extra tag is `metadata`. -/
def isMetaBlock : Node → Bool
  | Node.fencedCode lang extra _ => (lang == "toml" || lang == "yaml") && extra == "metadata"
  | _ => false

/-- The parser `process_file` applies to an embedded metadata block,
selected by the block's language tag.  Only meaningful on metadata blocks. -/
def parseBlock (ctx : MdCtx) : Node → Except String Metadata
  | Node.fencedCode lang _ raw =>
      if lang == "toml" then ctx.parseToml raw else ctx.parseYaml raw
  | _ => Except.ok []

/-- Number of level-1 headings among the top-level nodes. -/
def countH1 : List Node → Nat
  | [] => 0
  | n :: rest => (if isH1 n then 1 else 0) + countH1 rest

/-- Specification-side decomposition of a node sequence, following §3/§4.3
of the spec: the preamble (nodes before the first level-1 heading) paired
with the list of segments, one per level-1 heading, each carrying the
heading's inline source and the nodes up to the next level-1 heading. -/
def splitDoc : List Node → List Node × List (String × List Node)
  | [] => ([], [])
  | Node.heading 1 i :: rest =>
      ([], (i, (splitDoc rest).1) :: (splitDoc rest).2)
  | n :: rest => (n :: (splitDoc rest).1, (splitDoc rest).2)

/-- Fold step of the spec-side metadata merge over one node: an embedded
metadata block that parses successfully is merged in, everything else is
ignored. -/
def mergeNode (ctx : MdCtx) (acc : Metadata) (n : Node) : Metadata :=
  if isMetaBlock n then
    match parseBlock ctx n with
    | Except.ok m => mupdate acc m
    | Except.error _ => acc
  else acc

/-- Spec-side metadata of one segment: the base metadata merged with the
segment's own embedded metadata blocks, in encounter order. -/
def mergeBlocks (ctx : MdCtx) (m : Metadata) (ns : List Node) : Metadata :=
  ns.foldl (mergeNode ctx) m

/-- The effect of a heading-free node run on the loop state: metadata blocks
merge into the metadata local (when it is set), all other nodes append to
the body accumulator. -/
def applyPre (ctx : MdCtx) (s : SegState) (p : List Node) : SegState :=
  { items := s.items, title := s.title,
    metadata :=
      match s.metadata with
      | none => none
      | some m => some (mergeBlocks ctx m p),
    body := s.body ++ p.filter (fun n => !isMetaBlock n) }

/-- Specification-side item for one segment (§3): rendered title, body
rendered from the segment's non-metadata nodes, and metadata equal to a
fresh copy of the base metadata merged with only this segment's own
embedded blocks.  A segment whose title renders empty yields no item. -/
def specSegItem (ctx : MdCtx) (base : Metadata) (seg : String × List Node) : Option Item :=
  if (ctx.renderInline seg.1).isEmpty then none
  else some { title := ctx.renderInline seg.1,
              body := ctx.renderBlocks (seg.2.filter (fun n => !isMetaBlock n)),
              metadata := some (mergeBlocks ctx base seg.2) }

/-- Specification-side item list: one item per segment with a non-empty
rendered title, in segment order. -/
def specItems (ctx : MdCtx) (base : Metadata) (segs : List (String × List Node)) : List Item :=
  segs.filterMap (specSegItem ctx base)

/-- The value the last embedded metadata block of a node run assigns to a
key, if any block assigns it one. -/
def blocksLookup (ctx : MdCtx) (k : String) : List Node → Option Value
  | [] => none
  | n :: rest =>
    match blocksLookup ctx k rest with
    | some v => some v
    | none =>
      if isMetaBlock n then
        match parseBlock ctx n with
        | Except.ok m => mlookup k m
        | Except.error _ => none
      else none

/-! ### Lookup lemmas for the dict-update embedding -/

theorem mlookup_mupdate_of_some {new : Metadata} {k : String} {v : Value}
    (h : mlookup k new = some v) (old : Metadata) :
    mlookup k (mupdate old new) = some v := by
  induction old with
  | nil => simpa [mupdate] using h
  | cons p rest ih =>
    by_cases hpk : p.1 = k
    · have hk : (mlookup p.1 new).isNone = false := by rw [hpk, h]; rfl
      simpa [mupdate, List.filter_cons, hk] using ih
    · have hne : (p.1 == k) = false := by simpa using hpk
      by_cases hk : (mlookup p.1 new).isNone
      · simpa [mupdate, List.filter_cons, hk, mlookup, hne] using ih
      · simp only [Bool.not_eq_true] at hk
        simpa [mupdate, List.filter_cons, hk] using ih

theorem mlookup_mupdate_of_none {new : Metadata} {k : String}
    (h : mlookup k new = none) (old : Metadata) :
    mlookup k (mupdate old new) = mlookup k old := by
  induction old with
  | nil => simpa [mupdate] using h
  | cons p rest ih =>
    by_cases hpk : p.1 = k
    · have hk : (mlookup p.1 new).isNone = true := by rw [hpk, h]; rfl
      have hbk : (p.1 == k) = true := by simpa using hpk
      simp [mupdate, List.filter_cons, hk, mlookup, hbk]
    · have hne : (p.1 == k) = false := by simpa using hpk
      by_cases hk : (mlookup p.1 new).isNone
      · simpa [mupdate, List.filter_cons, hk, mlookup, hne] using ih
      · simp only [Bool.not_eq_true] at hk
        simpa [mupdate, List.filter_cons, hk, mlookup, hne] using ih

/-- Lookup after folding a sequence of merges: the last block that assigns
the key wins; if no block assigns it, the original value survives. -/
theorem mlookup_mergeBlocks (ctx : MdCtx) (k : String) :
    ∀ (ns : List Node) (m : Metadata),
      mlookup k (mergeBlocks ctx m ns) =
        match blocksLookup ctx k ns with
        | some v => some v
        | none => mlookup k m := by
  intro ns
  induction ns with
  | nil => intro m; simp [mergeBlocks, blocksLookup]
  | cons n rest ih =>
    intro m
    have hstep : mergeBlocks ctx m (n :: rest) = mergeBlocks ctx (mergeNode ctx m n) rest := by
      simp [mergeBlocks]
    rw [hstep, ih]
    cases hrest : blocksLookup ctx k rest with
    | some v => simp [blocksLookup, hrest]
    | none =>
      simp only [blocksLookup, hrest]
      by_cases hmeta : isMetaBlock n
      · cases hp : parseBlock ctx n with
        | ok mm =>
          cases hv : mlookup k mm with
          | some v =>
            simp [mergeNode, hmeta, hp, hv, mlookup_mupdate_of_some hv]
          | none =>
            simp [mergeNode, hmeta, hp, hv, mlookup_mupdate_of_none hv]
        | error e => simp [mergeNode, hmeta, hp]
      · simp [mergeNode, hmeta]

/-! ### Step lemmas for the segmenter loop -/

theorem runFrom_cons_ok (ctx : MdCtx) (base : Metadata) {s s' : SegState} {n : Node}
    (ns : List Node) (h : stepNode ctx base s n = Except.ok s') :
    runFrom ctx base s (n :: ns) = runFrom ctx base s' ns := by
  simp [runFrom, processNodes, h]

theorem runFrom_cons_err (ctx : MdCtx) (base : Metadata) {s : SegState} {n : Node} {e : PErr}
    (ns : List Node) (h : stepNode ctx base s n = Except.error e) :
    runFrom ctx base s (n :: ns) = Except.error e := by
  simp [runFrom, processNodes, h]

theorem stepNode_h1 (ctx : MdCtx) (base : Metadata) (s : SegState) (i : String) :
    stepNode ctx base s (Node.heading 1 i) =
      Except.ok { items := flush ctx s, title := some (ctx.renderInline i),
                  metadata := some base, body := [] } := rfl

/-- A node that is neither a level-1 heading nor an embedded metadata block
is appended to the body accumulator. -/
theorem stepNode_body (ctx : MdCtx) (base : Metadata) (s : SegState) (n : Node)
    (h1 : isH1 n = false) (h2 : isMetaBlock n = false) :
    stepNode ctx base s n = Except.ok { s with body := s.body ++ [n] } := by
  cases n with
  | heading lvl i =>
    rcases lvl with _ | lvl
    · rfl
    · rcases lvl with _ | lvl
      · simp [isH1] at h1
      · rfl
  | fencedCode lang extra raw =>
    have h2' : ((lang == "toml" || lang == "yaml") && (extra == "metadata")) = false := by
      simpa [isMetaBlock] using h2
    have hc1 : ((lang == "toml") && (extra == "metadata")) = false := by
      cases htoml : lang == "toml" <;> cases hex : extra == "metadata" <;> simp_all
    have hc2 : ((lang == "yaml") && (extra == "metadata")) = false := by
      cases hy : lang == "yaml" <;> cases hex : extra == "metadata" <;> simp_all
    simp [stepNode, hc1, hc2]
  | other c => rfl

/-- An embedded metadata block whose raw text parses, merged while the
metadata local is set, updates it in place. -/
theorem stepNode_meta_ok (ctx : MdCtx) (base : Metadata) {s : SegState}
    {lang extra raw : String} {m mm : Metadata}
    (hmeta : isMetaBlock (Node.fencedCode lang extra raw) = true)
    (hp : parseBlock ctx (Node.fencedCode lang extra raw) = Except.ok mm)
    (hm : s.metadata = some m) :
    stepNode ctx base s (Node.fencedCode lang extra raw) =
      Except.ok { s with metadata := some (mupdate m mm) } := by
  have hex : (extra == "metadata") = true := by
    cases h : (extra == "metadata") <;> simp_all [isMetaBlock]
  cases htoml : (lang == "toml")
  · have hyaml : (lang == "yaml") = true := by
      cases h : (lang == "yaml") <;> simp_all [isMetaBlock]
    have hpy : ctx.parseYaml raw = Except.ok mm := by simpa [parseBlock, htoml] using hp
    simp [stepNode, htoml, hex, hyaml, hpy, hm]
  · have hpt : ctx.parseToml raw = Except.ok mm := by simpa [parseBlock, htoml] using hp
    simp [stepNode, htoml, hex, hpt, hm]

/-- An embedded metadata block whose raw text fails to parse, merged while
the metadata local is set, raises the parse error and leaves no successor
state. -/
theorem stepNode_meta_err (ctx : MdCtx) (base : Metadata) {s : SegState}
    {lang extra raw : String} {e : String} {m : Metadata}
    (hmeta : isMetaBlock (Node.fencedCode lang extra raw) = true)
    (hp : parseBlock ctx (Node.fencedCode lang extra raw) = Except.error e)
    (hm : s.metadata = some m) :
    stepNode ctx base s (Node.fencedCode lang extra raw) =
      Except.error (PErr.metadataParse e) := by
  have hex : (extra == "metadata") = true := by
    cases h : (extra == "metadata") <;> simp_all [isMetaBlock]
  cases htoml : (lang == "toml")
  · have hyaml : (lang == "yaml") = true := by
      cases h : (lang == "yaml") <;> simp_all [isMetaBlock]
    have hpy : ctx.parseYaml raw = Except.error e := by simpa [parseBlock, htoml] using hp
    simp [stepNode, htoml, hex, hyaml, hpy, hm]
  · have hpt : ctx.parseToml raw = Except.error e := by simpa [parseBlock, htoml] using hp
    simp [stepNode, htoml, hex, hpt, hm]

/-- An embedded metadata block reached while the metadata local is still
unset raises (Python: `AttributeError` on `None.update`, resolved before
the block's raw text is ever parsed), whatever the raw text is. -/
theorem stepNode_meta_none (ctx : MdCtx) (base : Metadata) {s : SegState}
    {lang extra raw : String}
    (hmeta : isMetaBlock (Node.fencedCode lang extra raw) = true)
    (hm : s.metadata = none) :
    stepNode ctx base s (Node.fencedCode lang extra raw) =
      Except.error PErr.noneMetadata := by
  have hex : (extra == "metadata") = true := by
    cases h : (extra == "metadata") <;> simp_all [isMetaBlock]
  cases htoml : (lang == "toml")
  · have hyaml : (lang == "yaml") = true := by
      cases h : (lang == "yaml") <;> simp_all [isMetaBlock]
    simp [stepNode, htoml, hex, hyaml, hm]
  · simp [stepNode, htoml, hex, hm]

theorem splitDoc_cons_nonH1 {n : Node} (h1 : isH1 n = false) (ns : List Node) :
    splitDoc (n :: ns) = (n :: (splitDoc ns).1, (splitDoc ns).2) := by
  cases n with
  | heading lvl i =>
    rcases lvl with _ | lvl
    · rfl
    · rcases lvl with _ | lvl
      · simp [isH1] at h1
      · rfl
  | fencedCode lang extra raw => rfl
  | other c => rfl

theorem applyPre_nil (ctx : MdCtx) (s : SegState) : applyPre ctx s [] = s := by
  cases s with
  | mk items title metadata body => cases metadata <;> simp [applyPre, mergeBlocks]

theorem applyPre_cons_meta (ctx : MdCtx) {s : SegState} {n : Node} {m mm : Metadata}
    (hmeta : isMetaBlock n = true) (hp : parseBlock ctx n = Except.ok mm)
    (hm : s.metadata = some m) (p : List Node) :
    applyPre ctx s (n :: p) = applyPre ctx { s with metadata := some (mupdate m mm) } p := by
  simp [applyPre, hm, mergeBlocks, mergeNode, hmeta, hp, List.filter_cons]

theorem applyPre_cons_nonmeta (ctx : MdCtx) {n : Node} (h2 : isMetaBlock n = false)
    (s : SegState) (p : List Node) :
    applyPre ctx s (n :: p) = applyPre ctx { s with body := s.body ++ [n] } p := by
  cases hm : s.metadata <;>
    simp [applyPre, hm, mergeBlocks, mergeNode, h2, List.filter_cons]

/-! ### Master characterization of the segmenter -/

/-- Running the loop from any state on a node sequence whose embedded
metadata blocks all parse, and whose pre-heading run contains no metadata
block if the metadata local is still unset, succeeds and produces the
flushed current item (fed the pre-heading run) followed by the
specification items of the remaining segments. -/
theorem runFrom_splitDoc (ctx : MdCtx) (base : Metadata) :
    ∀ (nodes : List Node) (s : SegState),
      (∀ n ∈ nodes, isMetaBlock n = true → ∃ m, parseBlock ctx n = Except.ok m) →
      (s.metadata = none → ∀ n ∈ (splitDoc nodes).1, isMetaBlock n = false) →
      runFrom ctx base s nodes =
        Except.ok (flush ctx (applyPre ctx s (splitDoc nodes).1) ++
                   specItems ctx base (splitDoc nodes).2) := by
  intro nodes
  induction nodes with
  | nil =>
    intro s _ _
    simp [runFrom, processNodes, splitDoc, applyPre_nil, specItems]
  | cons n ns ih =>
    intro s hok hpre
    have hok' : ∀ x ∈ ns, isMetaBlock x = true → ∃ m, parseBlock ctx x = Except.ok m :=
      fun x hx => hok x (List.mem_cons_of_mem _ hx)
    by_cases h1 : isH1 n
    · obtain ⟨i, rfl⟩ : ∃ i, n = Node.heading 1 i := by
        cases n with
        | heading lvl i =>
          rcases lvl with _ | lvl
          · simp [isH1] at h1
          · rcases lvl with _ | lvl
            · exact ⟨i, rfl⟩
            · simp [isH1] at h1
        | fencedCode lang extra raw => simp [isH1] at h1
        | other c => simp [isH1] at h1
      rw [runFrom_cons_ok ctx base ns (stepNode_h1 ctx base s i)]
      rw [ih _ hok' (by intro h; simp at h)]
      cases hm : s.metadata <;>
        by_cases hemp : (ctx.renderInline i).isEmpty <;>
          simp [splitDoc, applyPre, applyPre_nil, flush, truthyTitle, specItems,
                List.filterMap_cons, specSegItem, hemp, hm, mergeBlocks]
    · simp only [Bool.not_eq_true] at h1
      by_cases h2 : isMetaBlock n
      · obtain ⟨lang, extra, raw, rfl⟩ : ∃ lang extra raw, n = Node.fencedCode lang extra raw := by
          cases n with
          | heading lvl i => simp [isMetaBlock] at h2
          | fencedCode lang extra raw => exact ⟨lang, extra, raw, rfl⟩
          | other c => simp [isMetaBlock] at h2
        obtain ⟨mm, hp⟩ := hok _ (List.mem_cons_self _ _) h2
        cases hm : s.metadata with
        | none =>
          exfalso
          have := hpre hm (Node.fencedCode lang extra raw)
            (by rw [splitDoc_cons_nonH1 h1]; exact List.mem_cons_self _ _)
          rw [this] at h2
          exact Bool.false_ne_true h2
        | some m =>
          rw [runFrom_cons_ok ctx base ns (stepNode_meta_ok ctx base h2 hp hm)]
          rw [ih _ hok' (by intro h; simp at h)]
          rw [splitDoc_cons_nonH1 h1, applyPre_cons_meta ctx h2 hp hm]
      · simp only [Bool.not_eq_true] at h2
        rw [runFrom_cons_ok ctx base ns (stepNode_body ctx base s n h1 h2)]
        have hpre' : ({ s with body := s.body ++ [n] } : SegState).metadata = none →
            ∀ x ∈ (splitDoc ns).1, isMetaBlock x = false := by
          intro h x hx
          exact hpre h x (by rw [splitDoc_cons_nonH1 h1]; exact List.mem_cons_of_mem _ hx)
        rw [ih _ hok' hpre']
        rw [splitDoc_cons_nonH1 h1, applyPre_cons_nonmeta ctx h2]

theorem eq_heading_of_isH1 {n : Node} (h : isH1 n = true) : ∃ i, n = Node.heading 1 i := by
  cases n with
  | heading lvl i =>
    rcases lvl with _ | lvl
    · simp [isH1] at h
    · rcases lvl with _ | lvl
      · exact ⟨i, rfl⟩
      · simp [isH1] at h
  | fencedCode lang extra raw => simp [isH1] at h
  | other c => simp [isH1] at h

theorem eq_fenced_of_isMetaBlock {n : Node} (h : isMetaBlock n = true) :
    ∃ lang extra raw, n = Node.fencedCode lang extra raw := by
  cases n with
  | heading lvl i => simp [isMetaBlock] at h
  | fencedCode lang extra raw => exact ⟨lang, extra, raw, rfl⟩
  | other c => simp [isMetaBlock] at h

/-- Main refinement corollary: on a document whose preamble carries no
metadata block and whose embedded metadata blocks all parse, `process_file`
succeeds and returns exactly the specification items of its segments. -/
theorem process_file_spec (ctx : MdCtx) (base : Metadata) (nodes : List Node)
    (hok : ∀ n ∈ nodes, isMetaBlock n = true → ∃ m, parseBlock ctx n = Except.ok m)
    (hpre : ∀ n ∈ (splitDoc nodes).1, isMetaBlock n = false) :
    process_file ctx base nodes = Except.ok (specItems ctx base (splitDoc nodes).2) := by
  rw [process_file, runFrom_splitDoc ctx base nodes initSeg hok (fun _ => hpre)]
  simp [flush, truthyTitle, applyPre, initSeg]

theorem countH1_eq_length (nodes : List Node) : countH1 nodes = (splitDoc nodes).2.length := by
  induction nodes with
  | nil => rfl
  | cons n ns ih =>
    by_cases h1 : isH1 n
    · obtain ⟨i, rfl⟩ := eq_heading_of_isH1 h1
      simp [countH1, splitDoc, isH1, ih, Nat.add_comm]
    · simp only [Bool.not_eq_true] at h1
      simp [countH1, splitDoc_cons_nonH1 h1, h1, ih]

theorem specItems_all_titles (ctx : MdCtx) (base : Metadata) :
    ∀ segs : List (String × List Node),
      (∀ seg ∈ segs, (ctx.renderInline seg.1).isEmpty = false) →
      specItems ctx base segs = segs.map (fun seg =>
        { title := ctx.renderInline seg.1,
          body := ctx.renderBlocks (seg.2.filter (fun n => !isMetaBlock n)),
          metadata := some (mergeBlocks ctx base seg.2) }) := by
  intro segs
  induction segs with
  | nil => intro _; rfl
  | cons seg rest ih =>
    intro h
    have h0 := h seg (List.mem_cons_self _ _)
    rw [List.map_cons, ← ih (fun x hx => h x (List.mem_cons_of_mem _ hx))]
    simp [specItems, List.filterMap_cons, specSegItem, h0]

theorem processNodes_append (ctx : MdCtx) (base : Metadata) :
    ∀ (a b : List Node) (s : SegState),
      processNodes ctx base s (a ++ b) =
        match processNodes ctx base s a with
        | Except.error e => Except.error e
        | Except.ok s' => processNodes ctx base s' b := by
  intro a
  induction a with
  | nil => intro b s; simp [processNodes]
  | cons n ns ih =>
    intro b s
    simp only [List.cons_append, processNodes]
    cases stepNode ctx base s n <;> simp [ih]

theorem runFrom_append (ctx : MdCtx) (base : Metadata) (s : SegState) (a b : List Node) :
    runFrom ctx base s (a ++ b) =
      match processNodes ctx base s a with
      | Except.error e => Except.error e
      | Except.ok s' => runFrom ctx base s' b := by
  rw [runFrom, processNodes_append]
  cases processNodes ctx base s a <;> simp [runFrom]

/-- A run of nodes containing no level-1 heading and no metadata block only
accumulates body nodes. -/
theorem processNodes_clean_prefix (ctx : MdCtx) (base : Metadata) :
    ∀ (p : List Node) (b : List Node),
      (∀ n ∈ p, isH1 n = false) → (∀ n ∈ p, isMetaBlock n = false) →
      processNodes ctx base { items := [], title := none, metadata := none, body := b } p =
        Except.ok { items := [], title := none, metadata := none, body := b ++ p } := by
  intro p
  induction p with
  | nil => intro b _ _; simp [processNodes]
  | cons n ns ih =>
    intro b h1 h2
    have hn1 := h1 n (List.mem_cons_self _ _)
    have hn2 := h2 n (List.mem_cons_self _ _)
    simp only [processNodes, stepNode_body ctx base _ n hn1 hn2]
    rw [ih (b ++ [n]) (fun x hx => h1 x (List.mem_cons_of_mem _ hx))
        (fun x hx => h2 x (List.mem_cons_of_mem _ hx))]
    simp

/-- Before any item is open (`title = None`, `metadata = None`, no items),
the content of the body accumulator cannot influence the final result: it
is discarded at the next level-1 heading and never flushed otherwise. -/
theorem runFrom_body_irrelevant (ctx : MdCtx) (base : Metadata) :
    ∀ (nodes : List Node) (b1 b2 : List Node),
      runFrom ctx base { items := [], title := none, metadata := none, body := b1 } nodes =
      runFrom ctx base { items := [], title := none, metadata := none, body := b2 } nodes := by
  intro nodes
  induction nodes with
  | nil => intro b1 b2; simp [runFrom, processNodes, flush, truthyTitle]
  | cons n ns ih =>
    intro b1 b2
    by_cases h1 : isH1 n
    · obtain ⟨i, rfl⟩ := eq_heading_of_isH1 h1
      rw [runFrom_cons_ok ctx base ns (stepNode_h1 ctx base _ i),
          runFrom_cons_ok ctx base ns (stepNode_h1 ctx base _ i)]
      simp [flush, truthyTitle]
    · simp only [Bool.not_eq_true] at h1
      by_cases h2 : isMetaBlock n
      · obtain ⟨lang, extra, raw, rfl⟩ := eq_fenced_of_isMetaBlock h2
        rw [runFrom_cons_err ctx base ns (stepNode_meta_none ctx base h2 rfl),
            runFrom_cons_err ctx base ns (stepNode_meta_none ctx base h2 rfl)]
      · simp only [Bool.not_eq_true] at h2
        rw [runFrom_cons_ok ctx base ns (stepNode_body ctx base _ n h1 h2),
            runFrom_cons_ok ctx base ns (stepNode_body ctx base _ n h1 h2)]
        exact ih (b1 ++ [n]) (b2 ++ [n])

/-- Processing a heading-free run from a state with unset metadata either
raises, or succeeds with the metadata local still unset. -/
theorem processNodes_noH1_metadata_none (ctx : MdCtx) (base : Metadata) :
    ∀ (pre : List Node) (s : SegState),
      (∀ n ∈ pre, isH1 n = false) → s.metadata = none →
      (∃ e, processNodes ctx base s pre = Except.error e) ∨
      (∃ s', processNodes ctx base s pre = Except.ok s' ∧ s'.metadata = none) := by
  intro pre
  induction pre with
  | nil => intro s _ hm; exact Or.inr ⟨s, rfl, hm⟩
  | cons n ns ih =>
    intro s h1 hm
    have hn1 := h1 n (List.mem_cons_self _ _)
    by_cases h2 : isMetaBlock n
    · obtain ⟨lang, extra, raw, rfl⟩ := eq_fenced_of_isMetaBlock h2
      exact Or.inl ⟨PErr.noneMetadata, by
        simp [processNodes, stepNode_meta_none ctx base h2 hm]⟩
    · simp only [Bool.not_eq_true] at h2
      rcases ih { s with body := s.body ++ [n] }
          (fun x hx => h1 x (List.mem_cons_of_mem _ hx)) hm with ⟨e, he⟩ | ⟨s', hs', hm'⟩
      · exact Or.inl ⟨e, by simp [processNodes, stepNode_body ctx base s n hn1 h2, he]⟩
      · exact Or.inr ⟨s', by simp [processNodes, stepNode_body ctx base s n hn1 h2, hs'], hm'⟩

/-- Processing a heading-free run whose metadata blocks all parse, from a
state with set metadata, succeeds and applies exactly `applyPre`. -/
theorem processNodes_noH1_some (ctx : MdCtx) (base : Metadata) :
    ∀ (mid : List Node) (s : SegState) (m0 : Metadata),
      s.metadata = some m0 →
      (∀ n ∈ mid, isH1 n = false) →
      (∀ n ∈ mid, isMetaBlock n = true → ∃ m, parseBlock ctx n = Except.ok m) →
      processNodes ctx base s mid = Except.ok (applyPre ctx s mid) := by
  intro mid
  induction mid with
  | nil => intro s m0 _ _ _; simp [processNodes, applyPre_nil]
  | cons n ns ih =>
    intro s m0 hm h1 hok
    have hn1 := h1 n (List.mem_cons_self _ _)
    by_cases h2 : isMetaBlock n
    · obtain ⟨lang, extra, raw, rfl⟩ := eq_fenced_of_isMetaBlock h2
      obtain ⟨mm, hp⟩ := hok _ (List.mem_cons_self _ _) h2
      simp only [processNodes, stepNode_meta_ok ctx base h2 hp hm]
      rw [ih _ (mupdate m0 mm) rfl (fun x hx => h1 x (List.mem_cons_of_mem _ hx))
          (fun x hx => hok x (List.mem_cons_of_mem _ hx))]
      rw [applyPre_cons_meta ctx h2 hp hm]
    · simp only [Bool.not_eq_true] at h2
      simp only [processNodes, stepNode_body ctx base s n hn1 h2]
      rw [ih _ m0 (by simpa using hm) (fun x hx => h1 x (List.mem_cons_of_mem _ hx))
          (fun x hx => hok x (List.mem_cons_of_mem _ hx))]
      rw [applyPre_cons_nonmeta ctx h2]

/-- A pending segment whose stored title is the empty string is invisible
to the rest of the run: its state collapses to the state before its
heading, provided the continuation starts at a level-1 heading or at the
end of input. -/
theorem runFrom_skip_empty (ctx : MdCtx) (base : Metadata) (s1 : SegState)
    (md : Option Metadata) (b : List Node) (rest : List Node)
    (hrest : rest = [] ∨ ∃ i r, rest = Node.heading 1 i :: r) :
    runFrom ctx base { items := flush ctx s1, title := some "", metadata := md, body := b } rest =
      runFrom ctx base s1 rest := by
  have h0 : ("" : String).isEmpty = true := rfl
  rcases hrest with rfl | ⟨i, r, rfl⟩
  · simp [runFrom, processNodes, flush, truthyTitle, h0]
  · have hfl : flush ctx { items := flush ctx s1, title := some "", metadata := md, body := b } =
        flush ctx s1 := by
      simp [flush, truthyTitle, h0]
    rw [runFrom_cons_ok ctx base r (stepNode_h1 ctx base _ i),
        runFrom_cons_ok ctx base r (stepNode_h1 ctx base s1 i), hfl]

/-! ### Concrete collaborator instances for closed evaluations -/

/-- A concrete instantiation of the external collaborators, used to
evaluate the development on closed inputs: `parseToml` rejects the raw
text `bad` and otherwise yields `k = 1`, `parseYaml` yields `k = 2`, the
inline renderer is the identity and the block renderer returns `""`. -/
def ctxA : MdCtx :=
  { parseToml := fun raw =>
      if raw == "bad" then Except.error "toml parse error"
      else Except.ok [("k", Value.vnum 1)]
    parseYaml := fun _ => Except.ok [("k", Value.vnum 2)]
    renderInline := fun s => s
    renderBlocks := fun _ => "" }

/-! ### Claim C1 -/

/-- C1 counterexample: the document `#` parses to a single level-1 heading
whose inline content renders to the empty string; `process_file` returns
zero items for it, not one, refuting the claim that every document with N
level-1 headings yields exactly N items. -/
theorem C1_counterexample :
    process_file ctxA [] [Node.heading 1 ""] = Except.ok [] ∧
    countH1 [Node.heading 1 ""] = 1 ∧
    ¬ ∃ items, process_file ctxA [] [Node.heading 1 ""] = Except.ok items ∧
        items.length = countH1 [Node.heading 1 ""] := by
  refine ⟨rfl, rfl, ?_⟩
  rintro ⟨items, he, hl⟩
  rw [show process_file ctxA [] [Node.heading 1 ""] = Except.ok ([] : List Item) from rfl] at he
  injection he with h
  subst h
  simp [countH1, isH1] at hl

/-- C1 (amended): for every parsed node sequence whose preamble (before
the first level-1 heading) contains no embedded metadata block, whose
embedded metadata blocks all parse, and whose level-1 headings all have a
non-empty rendered title, `process_file` succeeds with exactly one item
per level-1 heading, in heading order. -/
theorem C1_items_per_heading (ctx : MdCtx) (base : Metadata) (nodes : List Node)
    (hok : ∀ n ∈ nodes, isMetaBlock n = true → ∃ m, parseBlock ctx n = Except.ok m)
    (hpre : ∀ n ∈ (splitDoc nodes).1, isMetaBlock n = false)
    (htitles : ∀ seg ∈ (splitDoc nodes).2, (ctx.renderInline seg.1).isEmpty = false) :
    ∃ items, process_file ctx base nodes = Except.ok items ∧
      items.length = countH1 nodes ∧
      items.map Item.title = ((splitDoc nodes).2).map (fun seg => ctx.renderInline seg.1) := by
  refine ⟨_, process_file_spec ctx base nodes hok hpre, ?_, ?_⟩
  · rw [specItems_all_titles ctx base _ htitles, countH1_eq_length]
    simp
  · rw [specItems_all_titles ctx base _ htitles, List.map_map]
    rfl

/-- C1 witness: a two-heading document with an interleaved body paragraph
produces two items titled in heading order. -/
theorem C1_witness :
    ∃ items,
      process_file ctxA [] [Node.heading 1 "A", Node.other "p", Node.heading 1 "B"] =
        Except.ok items ∧
      items.length = countH1 [Node.heading 1 "A", Node.other "p", Node.heading 1 "B"] ∧
      items.map Item.title =
        ((splitDoc [Node.heading 1 "A", Node.other "p", Node.heading 1 "B"]).2).map
          (fun seg => ctxA.renderInline seg.1) :=
  C1_items_per_heading ctxA [] _
    (by
      intro n hn h
      simp only [List.mem_cons, List.not_mem_nil, or_false] at hn
      rcases hn with rfl | rfl | rfl <;> simp [isMetaBlock] at h)
    (by
      intro n hn
      simp only [show (splitDoc [Node.heading 1 "A", Node.other "p",
        Node.heading 1 "B"]).1 = [] from rfl] at hn
      exact absurd hn (List.not_mem_nil n))
    (by
      intro seg hseg
      simp only [show (splitDoc [Node.heading 1 "A", Node.other "p",
        Node.heading 1 "B"]).2 = [("A", [Node.other "p"]), ("B", [])] from rfl,
        List.mem_cons, List.not_mem_nil, or_false] at hseg
      rcases hseg with rfl | rfl <;> rfl)

/-! ### Claim C2 -/

/-- C2 counterexample: a document with zero level-1 headings containing one
embedded metadata block does not return an empty item list: `process_file`
raises instead (Python `AttributeError` on `None.update`), refuting the
claim that every zero-heading document returns an empty item list. -/
theorem C2_counterexample :
    process_file ctxA [] [Node.fencedCode "toml" "metadata" "k = 1"] =
      Except.error PErr.noneMetadata ∧
    countH1 [Node.fencedCode "toml" "metadata" "k = 1"] = 0 ∧
    ¬ ∃ items, process_file ctxA [] [Node.fencedCode "toml" "metadata" "k = 1"] =
        Except.ok items := by
  refine ⟨rfl, rfl, ?_⟩
  rintro ⟨items, he⟩
  rw [show process_file ctxA [] [Node.fencedCode "toml" "metadata" "k = 1"] =
      Except.error PErr.noneMetadata from rfl] at he
  injection he

/-- C2 (amended): a document with zero level-1 headings and no embedded
metadata block returns an empty item list; and any heading-free,
metadata-block-free run of nodes before the rest of a document is
discarded: it contributes to no returned item. -/
theorem C2_zero_headings_empty (ctx : MdCtx) (base : Metadata) :
    (∀ nodes, (∀ n ∈ nodes, isH1 n = false) → (∀ n ∈ nodes, isMetaBlock n = false) →
      process_file ctx base nodes = Except.ok []) ∧
    (∀ p rest, (∀ n ∈ p, isH1 n = false) → (∀ n ∈ p, isMetaBlock n = false) →
      process_file ctx base (p ++ rest) = process_file ctx base rest) := by
  have hdiscard : ∀ p rest, (∀ n ∈ p, isH1 n = false) → (∀ n ∈ p, isMetaBlock n = false) →
      process_file ctx base (p ++ rest) = process_file ctx base rest := by
    intro p rest h1 h2
    calc process_file ctx base (p ++ rest)
        = runFrom ctx base { items := [], title := none, metadata := none, body := [] }
            (p ++ rest) := rfl
      _ = runFrom ctx base { items := [], title := none, metadata := none, body := [] ++ p }
            rest := by
            rw [runFrom_append, processNodes_clean_prefix ctx base p [] h1 h2]
      _ = runFrom ctx base { items := [], title := none, metadata := none, body := [] } rest :=
            runFrom_body_irrelevant ctx base rest ([] ++ p) []
      _ = process_file ctx base rest := rfl
  refine ⟨?_, hdiscard⟩
  intro nodes h1 h2
  have h := hdiscard nodes [] h1 h2
  rw [List.append_nil] at h
  rw [h]
  rfl

/-- C2 witness: a body paragraph before the only heading is dropped, and a
heading-free, metadata-free document yields no items. -/
theorem C2_witness :
    process_file ctxA [] ([Node.other "intro"] ++ [Node.heading 1 "T"]) =
      process_file ctxA [] [Node.heading 1 "T"] ∧
    process_file ctxA [] [Node.other "x"] = Except.ok [] :=
  ⟨(C2_zero_headings_empty ctxA []).2 [Node.other "intro"] [Node.heading 1 "T"]
      (by intro n hn; simp only [List.mem_singleton] at hn; subst hn; rfl)
      (by intro n hn; simp only [List.mem_singleton] at hn; subst hn; rfl),
   (C2_zero_headings_empty ctxA []).1 [Node.other "x"]
      (by intro n hn; simp only [List.mem_singleton] at hn; subst hn; rfl)
      (by intro n hn; simp only [List.mem_singleton] at hn; subst hn; rfl)⟩

/-! ### Claim C3 -/

/-- C3: if a key appears both in the front-matter metadata and in an
embedded metadata block of an item's segment, the item's final metadata
maps the key to the embedded block's value (the last embedded assignment),
not to the front-matter value. -/
theorem C3_embedded_overrides (ctx : MdCtx) (base : Metadata) (nodes : List Node)
    (inline : String) (ns : List Node) (k : String) (v v0 : Value)
    (hok : ∀ n ∈ nodes, isMetaBlock n = true → ∃ m, parseBlock ctx n = Except.ok m)
    (hpre : ∀ n ∈ (splitDoc nodes).1, isMetaBlock n = false)
    (hseg : (inline, ns) ∈ (splitDoc nodes).2)
    (ht : (ctx.renderInline inline).isEmpty = false)
    (hfm : mlookup k base = some v0)
    (hblk : blocksLookup ctx k ns = some v) :
    ∃ items, process_file ctx base nodes = Except.ok items ∧
      ∃ it ∈ items, it.title = ctx.renderInline inline ∧
        ∃ md, it.metadata = some md ∧ mlookup k md = some v := by
  refine ⟨_, process_file_spec ctx base nodes hok hpre, ?_⟩
  refine ⟨{ title := ctx.renderInline inline,
            body := ctx.renderBlocks (ns.filter (fun n => !isMetaBlock n)),
            metadata := some (mergeBlocks ctx base ns) }, ?_, rfl, ?_⟩
  · exact List.mem_filterMap.mpr ⟨(inline, ns), hseg, by simp [specSegItem, ht]⟩
  · exact ⟨_, rfl, (mlookup_mergeBlocks ctx k ns base).trans (by rw [hblk])⟩

/-- C3 witness: with front matter `k = 0` and one embedded block assigning
`k = 1`, the produced item maps `k` to `1`. -/
theorem C3_witness :
    ∃ items, process_file ctxA [("k", Value.vnum 0)]
        [Node.heading 1 "T", Node.fencedCode "toml" "metadata" "x"] = Except.ok items ∧
      ∃ it ∈ items, it.title = ctxA.renderInline "T" ∧
        ∃ md, it.metadata = some md ∧ mlookup "k" md = some (Value.vnum 1) :=
  C3_embedded_overrides ctxA [("k", Value.vnum 0)] _ "T"
    [Node.fencedCode "toml" "metadata" "x"] "k" (Value.vnum 1) (Value.vnum 0)
    (by
      intro n hn h
      simp only [List.mem_cons, List.not_mem_nil, or_false] at hn
      rcases hn with rfl | rfl
      · simp [isMetaBlock] at h
      · exact ⟨[("k", Value.vnum 1)], rfl⟩)
    (by
      intro n hn
      simp only [show (splitDoc [Node.heading 1 "T",
        Node.fencedCode "toml" "metadata" "x"]).1 = [] from rfl] at hn
      exact absurd hn (List.not_mem_nil n))
    (by
      rw [show (splitDoc [Node.heading 1 "T", Node.fencedCode "toml" "metadata" "x"]).2 =
        [("T", [Node.fencedCode "toml" "metadata" "x"])] from rfl]
      exact List.mem_singleton.mpr rfl)
    rfl rfl rfl

/-! ### Claim C4 -/

/-- C4: the metadata merge overwrites every same-named key with the new
value, preserves keys only present in the existing mapping, replaces
nested structures wholesale (shallow merge), applies consecutive merges so
that the later one wins on conflicts, and two embedded blocks of the same
item are merged in encounter order. -/
theorem C4_update_semantics :
    (∀ (old new : Metadata) (k : String) (v : Value),
        mlookup k new = some v → mlookup k (mupdate old new) = some v) ∧
    (∀ (old new : Metadata) (k : String),
        mlookup k new = none → mlookup k (mupdate old new) = mlookup k old) ∧
    (∀ (old new : Metadata) (k : String) (mo mn : List (String × Value)),
        mlookup k old = some (Value.vmap mo) → mlookup k new = some (Value.vmap mn) →
        mlookup k (mupdate old new) = some (Value.vmap mn)) ∧
    (∀ (m b1 b2 : Metadata) (k : String) (v : Value),
        mlookup k b2 = some v → mlookup k (mupdate (mupdate m b1) b2) = some v) ∧
    (∀ (ctx : MdCtx) (base : Metadata) (n1 n2 : Node) (m1 m2 : Metadata),
        isMetaBlock n1 = true → isMetaBlock n2 = true →
        parseBlock ctx n1 = Except.ok m1 → parseBlock ctx n2 = Except.ok m2 →
        mergeBlocks ctx base [n1, n2] = mupdate (mupdate base m1) m2) :=
  ⟨fun _ _ _ _ h => mlookup_mupdate_of_some h _,
   fun _ _ _ h => mlookup_mupdate_of_none h _,
   fun _ _ _ _ _ _ h2 => mlookup_mupdate_of_some h2 _,
   fun _ _ _ _ _ h => mlookup_mupdate_of_some h _,
   fun ctx base n1 n2 m1 m2 hm1 hm2 hp1 hp2 => by
     simp [mergeBlocks, mergeNode, hm1, hm2, hp1, hp2]⟩

/-- C4 witness: overwrite, preservation, wholesale map replacement and
later-merge-wins, each evaluated on concrete mappings. -/
theorem C4_witness :
    mlookup "k" (mupdate [("a", Value.vnum 1), ("k", Value.vnum 2)] [("k", Value.vnum 3)]) =
      some (Value.vnum 3) ∧
    mlookup "a" (mupdate [("a", Value.vnum 1), ("k", Value.vnum 2)] [("k", Value.vnum 3)]) =
      some (Value.vnum 1) ∧
    mlookup "m" (mupdate [("m", Value.vmap [("x", Value.vnum 1)])]
        [("m", Value.vmap [("y", Value.vnum 2)])]) = some (Value.vmap [("y", Value.vnum 2)]) ∧
    mlookup "k" (mupdate (mupdate [] [("k", Value.vnum 1)]) [("k", Value.vnum 9)]) =
      some (Value.vnum 9) ∧
    mergeBlocks ctxA [] [Node.fencedCode "toml" "metadata" "x",
        Node.fencedCode "yaml" "metadata" "y"] =
      mupdate (mupdate [] [("k", Value.vnum 1)]) [("k", Value.vnum 2)] :=
  ⟨C4_update_semantics.1 _ _ _ _ rfl,
   (C4_update_semantics.2.1 [("a", Value.vnum 1), ("k", Value.vnum 2)]
      [("k", Value.vnum 3)] "a" rfl).trans rfl,
   C4_update_semantics.2.2.1 _ _ _ _ _ rfl rfl,
   C4_update_semantics.2.2.2.1 _ _ _ _ _ rfl,
   C4_update_semantics.2.2.2.2 ctxA [] _ _ _ _ rfl rfl rfl rfl⟩

/-! ### Claim C5 -/

/-- C5: every item's metadata starts from a fresh copy of the base (front
matter) metadata and equals the base merged with only that item's own
embedded blocks; in particular items are exactly the specification items
of their segments, so no merge in one item can affect a sibling item or
the base mapping. -/
theorem C5_metadata_isolation (ctx : MdCtx) (base : Metadata) (nodes : List Node)
    (hok : ∀ n ∈ nodes, isMetaBlock n = true → ∃ m, parseBlock ctx n = Except.ok m)
    (hpre : ∀ n ∈ (splitDoc nodes).1, isMetaBlock n = false) :
    process_file ctx base nodes = Except.ok (specItems ctx base (splitDoc nodes).2) ∧
    ∀ it ∈ specItems ctx base (splitDoc nodes).2,
      ∃ seg ∈ (splitDoc nodes).2, it.metadata = some (mergeBlocks ctx base seg.2) := by
  refine ⟨process_file_spec ctx base nodes hok hpre, ?_⟩
  intro it hit
  obtain ⟨seg, hseg, hsome⟩ := List.mem_filterMap.mp hit
  refine ⟨seg, hseg, ?_⟩
  by_cases hemp : (ctx.renderInline seg.1).isEmpty
  · simp [specSegItem, hemp] at hsome
  · simp only [specSegItem, hemp, Bool.false_eq_true, if_false, Option.some.injEq] at hsome
    rw [← hsome]

/-- C5 witness: two sibling items each merge only their own block over the
same base. -/
theorem C5_witness :
    process_file ctxA [("k", Value.vnum 0)]
        [Node.heading 1 "A", Node.fencedCode "toml" "metadata" "x", Node.heading 1 "B"] =
      Except.ok (specItems ctxA [("k", Value.vnum 0)]
        (splitDoc [Node.heading 1 "A", Node.fencedCode "toml" "metadata" "x",
          Node.heading 1 "B"]).2) ∧
    ∀ it ∈ specItems ctxA [("k", Value.vnum 0)]
        (splitDoc [Node.heading 1 "A", Node.fencedCode "toml" "metadata" "x",
          Node.heading 1 "B"]).2,
      ∃ seg ∈ (splitDoc [Node.heading 1 "A", Node.fencedCode "toml" "metadata" "x",
          Node.heading 1 "B"]).2,
        it.metadata = some (mergeBlocks ctxA [("k", Value.vnum 0)] seg.2) :=
  C5_metadata_isolation ctxA [("k", Value.vnum 0)] _
    (by
      intro n hn h
      simp only [List.mem_cons, List.not_mem_nil, or_false] at hn
      rcases hn with rfl | rfl | rfl
      · simp [isMetaBlock] at h
      · exact ⟨[("k", Value.vnum 1)], rfl⟩
      · simp [isMetaBlock] at h)
    (by
      intro n hn
      simp only [show (splitDoc [Node.heading 1 "A", Node.fencedCode "toml" "metadata" "x",
        Node.heading 1 "B"]).1 = [] from rfl] at hn
      exact absurd hn (List.not_mem_nil n))

/-! ### Claim C7 -/

/-- C7: if an embedded metadata block's raw text is invalid for its
declared format and an item is open (the metadata local is set, as it is
from the first level-1 heading on — with it unset the program raises
`AttributeError` before parsing, see C9), processing the file fails with a
metadata parse error; the failing step itself produces no successor state,
so the metadata accumulated before the failing block (the state reached on
the prefix) is exactly what it was: no partial merge is applied. -/
theorem C7_parse_error_aborts (ctx : MdCtx) (base : Metadata) (pre : List Node)
    (lang extra raw : String) (rest : List Node) (e : String) (s : SegState) (m : Metadata)
    (hmeta : isMetaBlock (Node.fencedCode lang extra raw) = true)
    (hp : parseBlock ctx (Node.fencedCode lang extra raw) = Except.error e)
    (hpre : processNodes ctx base initSeg pre = Except.ok s)
    (hm : s.metadata = some m) :
    process_file ctx base (pre ++ Node.fencedCode lang extra raw :: rest) =
      Except.error (PErr.metadataParse e) ∧
    stepNode ctx base s (Node.fencedCode lang extra raw) =
      Except.error (PErr.metadataParse e) := by
  constructor
  · rw [process_file, runFrom_append, hpre]
    exact runFrom_cons_err ctx base rest (stepNode_meta_err ctx base hmeta hp hm)
  · exact stepNode_meta_err ctx base hmeta hp hm

/-- C7 witness: a file whose second block is an invalid TOML metadata
block aborts with the parse error while the prefix state is intact. -/
theorem C7_witness :
    process_file ctxA [] ([Node.heading 1 "T"] ++ Node.fencedCode "toml" "metadata" "bad" ::
        [Node.other "p"]) = Except.error (PErr.metadataParse "toml parse error") ∧
    stepNode ctxA []
        { items := [], title := some "T", metadata := some [], body := [] }
        (Node.fencedCode "toml" "metadata" "bad") =
      Except.error (PErr.metadataParse "toml parse error") :=
  C7_parse_error_aborts ctxA [] [Node.heading 1 "T"] "toml" "metadata" "bad"
    [Node.other "p"] "toml parse error"
    { items := [], title := some "T", metadata := some [], body := [] } []
    rfl rfl rfl rfl

/-! ### Claim C9 -/

/-- C9: a fenced metadata block (toml or yaml, tagged `metadata`) occurring
before any level-1 heading makes `process_file` raise for the whole file
(Python: `AttributeError` on `None.update`, or an earlier error while
processing the preceding nodes); the block is neither ignored nor merged
anywhere. -/
theorem C9_preheading_metadata_raises (ctx : MdCtx) (base : Metadata) (pre : List Node)
    (lang extra raw : String) (rest : List Node)
    (hpre : ∀ n ∈ pre, isH1 n = false)
    (hmeta : isMetaBlock (Node.fencedCode lang extra raw) = true) :
    ∃ e, process_file ctx base (pre ++ Node.fencedCode lang extra raw :: rest) =
      Except.error e := by
  rcases processNodes_noH1_metadata_none ctx base pre initSeg hpre rfl with
    ⟨e, he⟩ | ⟨s', hs', hm'⟩
  · exact ⟨e, by rw [process_file, runFrom_append, he]⟩
  · refine ⟨PErr.noneMetadata, ?_⟩
    rw [process_file, runFrom_append, hs']
    exact runFrom_cons_err ctx base rest (stepNode_meta_none ctx base hmeta hm')

/-- C9 witness: a yaml metadata block after an ordinary paragraph but
before any heading aborts the file. -/
theorem C9_witness :
    ∃ e, process_file ctxA [] ([Node.other "p"] ++ Node.fencedCode "yaml" "metadata" "k: 2" ::
        [Node.heading 1 "T"]) = Except.error e :=
  C9_preheading_metadata_raises ctxA [] [Node.other "p"] "yaml" "metadata" "k: 2"
    [Node.heading 1 "T"]
    (by intro n hn; simp only [List.mem_singleton] at hn; subst hn; rfl)
    rfl

/-! ### Claim C10 -/

/-- C10: a level-1 heading whose inline content renders to the empty
string never yields an item: at the next level-1 heading (or at the end of
input) the flush is skipped because the stored title is empty, and the
body and metadata accumulated under it are discarded — the run is
equivalent to one in which the heading and its whole segment are absent. -/
theorem C10_empty_title_discarded (ctx : MdCtx) (base : Metadata) (pre : List Node)
    (inline : String) (mid rest : List Node)
    (hempty : ctx.renderInline inline = "")
    (hmid1 : ∀ n ∈ mid, isH1 n = false)
    (hmidok : ∀ n ∈ mid, isMetaBlock n = true → ∃ m, parseBlock ctx n = Except.ok m)
    (hrest : rest = [] ∨ ∃ i r, rest = Node.heading 1 i :: r) :
    process_file ctx base (pre ++ Node.heading 1 inline :: (mid ++ rest)) =
      process_file ctx base (pre ++ rest) := by
  rw [process_file, process_file, runFrom_append, runFrom_append]
  cases hpre : processNodes ctx base initSeg pre with
  | error e => rfl
  | ok s1 =>
    show runFrom ctx base s1 (Node.heading 1 inline :: (mid ++ rest)) =
      runFrom ctx base s1 rest
    rw [runFrom_cons_ok ctx base (mid ++ rest) (stepNode_h1 ctx base s1 inline), hempty]
    rw [runFrom_append,
        processNodes_noH1_some ctx base mid _ base rfl hmid1 hmidok]
    have h := runFrom_skip_empty ctx base s1 (some (mergeBlocks ctx base mid))
      ([] ++ mid.filter (fun n => !isMetaBlock n)) rest hrest
    simpa [applyPre] using h

/-- C10 witness: an empty-titled heading together with its paragraph and
metadata block disappears from the result. -/
theorem C10_witness :
    process_file ctxA [] ([Node.other "p"] ++ Node.heading 1 "" ::
        ([Node.other "x", Node.fencedCode "toml" "metadata" "x"] ++
          [Node.heading 1 "T", Node.other "y"])) =
      process_file ctxA [] ([Node.other "p"] ++ [Node.heading 1 "T", Node.other "y"]) :=
  C10_empty_title_discarded ctxA [] [Node.other "p"] ""
    [Node.other "x", Node.fencedCode "toml" "metadata" "x"]
    [Node.heading 1 "T", Node.other "y"]
    rfl
    (by
      intro n hn
      simp only [List.mem_cons, List.not_mem_nil, or_false] at hn
      rcases hn with rfl | rfl <;> rfl)
    (by
      intro n hn h
      simp only [List.mem_cons, List.not_mem_nil, or_false] at hn
      rcases hn with rfl | rfl
      · simp [isMetaBlock] at h
      · exact ⟨[("k", Value.vnum 1)], rfl⟩)
    (Or.inr ⟨"T", [Node.other "y"], rfl⟩)

/-! ### Claim C6: the Front-Matter Extractor -/

/-- Modelled from the spec (§4.1): helper of the Front-Matter Extractor
(the external `frontmatter.parse` call in `process_file`, whose
implementation is not part of this repository's sources).  Scans the lines
after an opening `---` delimiter for the closing `---` line, returning the
block's lines and the remaining lines, or `none` when no closing delimiter
exists. -/
def splitAtDelim : List String → Option (List String × List String)
  | [] => none
  | l :: ls =>
    if l == "---" then some ([], ls)
    else
      match splitAtDelim ls with
      | some (a, b) => some (l :: a, b)
      | none => none

/-- Whether the text (represented by its list of lines) begins with a
recognized front-matter delimiter block: an opening `---` first line with
a closing `---` line somewhere below. -/
def hasFrontMatterBlock (lines : List String) : Bool :=
  match lines with
  | [] => false
  | first :: rest => first == "---" && rest.any (fun l => l == "---")

/-- Modelled from the spec (§4.1): the Front-Matter Extractor, the external
`frontmatter.parse` call of `process_file`.  The input text is represented
by its list of lines and `p` parses the delimited block's content.  If the
text begins with a recognized metadata-delimiter block, its content is
parsed and returned together with everything after the closing delimiter;
otherwise the extractor returns an empty mapping and the text unchanged. -/
def splitFrontMatter (p : List String → Except String Metadata) (lines : List String) :
    Except String (Metadata × List String) :=
  match lines with
  | [] => Except.ok ([], [])
  | first :: rest =>
    if first == "---" then
      match splitAtDelim rest with
      | some (block, remain) =>
        match p block with
        | Except.ok m => Except.ok (m, remain)
        | Except.error e => Except.error e
      | none => Except.ok ([], first :: rest)
    else Except.ok ([], first :: rest)

theorem splitAtDelim_eq_none {ls : List String}
    (h : ∀ l ∈ ls, (l == "---") = false) : splitAtDelim ls = none := by
  induction ls with
  | nil => rfl
  | cons l ls ih =>
    have h0 := h l (List.mem_cons_self _ _)
    simp [splitAtDelim, h0, ih (fun x hx => h x (List.mem_cons_of_mem _ hx))]

/-- C6: for every input text that does not begin with a recognized
front-matter delimiter block, the Front-Matter Extractor returns the empty
metadata mapping together with the input text unchanged, whatever the
block parser is. -/
theorem C6_no_frontmatter_unchanged (p : List String → Except String Metadata)
    (lines : List String) (h : hasFrontMatterBlock lines = false) :
    splitFrontMatter p lines = Except.ok ([], lines) := by
  cases lines with
  | nil => rfl
  | cons first rest =>
    by_cases hf : (first == "---") = true
    · have hrest : ∀ l ∈ rest, (l == "---") = false := by
        intro l hl
        cases hb : (l == "---")
        · rfl
        · exfalso
          have hany : rest.any (fun l => l == "---") = true :=
            List.any_eq_true.mpr ⟨l, hl, hb⟩
          rw [hasFrontMatterBlock, hf, hany] at h
          simp at h
      simp [splitFrontMatter, hf, splitAtDelim_eq_none hrest]
    · simp only [Bool.not_eq_true] at hf
      simp [splitFrontMatter, hf]

/-- C6 witness: a two-line text with no delimiter block passes through
unchanged with empty metadata. -/
theorem C6_witness :
    hasFrontMatterBlock ["hello", "world"] = false ∧
    splitFrontMatter (fun _ => Except.error "unused") ["hello", "world"] =
      Except.ok ([], ["hello", "world"]) :=
  ⟨rfl, C6_no_frontmatter_unchanged _ _ rfl⟩

/-! ### Claim C8: render / re-parse round trip

Modelled from the spec (§4.2, §4.5): the Markdown Parser and the Renderer
are the external marko library (`md.parse`, `md.render` via `items_to_md`),
whose implementation is not part of this repository's sources.  The model
covers the supported construct subset named by the spec — headings,
paragraphs, (bullet) lists, fenced code blocks and tables — over markdown
text represented as a list of lines, each line a list of characters.
Inline emphasis lives inside the text content of headings, paragraphs and
cells, which the model preserves verbatim. -/

/-- A line of markdown text. -/
abbrev Line := List Char

/-- Modelled from the spec: a block node of the supported construct
subset. -/
inductive MdBlock where
  | heading (level : Nat) (text : Line)
  | para (text : Line)
  | bullets (items : List Line)
  | codeB (lang : Line) (code : List Line)
  | table (header : List Line) (rows : List (List Line))
  deriving DecidableEq

/-- The closing/opening code-fence marker. -/
def fenceLine : Line := ['`', '`', '`']

/-- The table separator cell. -/
def sepCell : Line := ['-', '-', '-']

/-- Render one table row in canonical form: a `|`-framed, space-padded
cell list. -/
def renderRow (cs : List Line) : Line :=
  '|' :: (cs.map (fun c => ' ' :: (c ++ [' ', '|']))).flatten

/-- Modelled from the spec (§4.5): serialize one block node to canonical
markdown lines. -/
def renderB : MdBlock → List Line
  | MdBlock.heading l t => [List.replicate l '#' ++ ' ' :: t]
  | MdBlock.para t => [t]
  | MdBlock.bullets its => its.map (fun i => '-' :: ' ' :: i)
  | MdBlock.codeB lang code => (fenceLine ++ lang) :: (code ++ [fenceLine])
  | MdBlock.table h rows =>
      renderRow h :: renderRow (List.replicate h.length sepCell) :: rows.map renderRow

/-- Modelled from the spec (§4.5): serialize a node sequence, one blank
line after every block. -/
def renderDoc (bs : List MdBlock) : List Line :=
  (bs.map (fun b => renderB b ++ [[]])).flatten

/-- Whether the line starts with the given character. -/
def headIs (c : Char) : Line → Bool
  | x :: _ => x == c
  | [] => false

/-- Whether the line is a bullet list item (`- ` prefix). -/
def isBulletLine : Line → Bool
  | '-' :: ' ' :: _ => true
  | _ => false

/-- Whether the line is a table row (`|` prefix). -/
def isRowLine (l : Line) : Bool := headIs '|' l

theorem lenDropWhileLe {α : Type} (p : α → Bool) (l : List α) :
    (l.dropWhile p).length ≤ l.length := by
  induction l with
  | nil => simp [List.dropWhile]
  | cons a l ih =>
    by_cases h : p a
    · simp only [List.dropWhile_cons, h, if_true]
      exact Nat.le_trans ih (Nat.le_succ _)
    · simp only [Bool.not_eq_true] at h
      simp [List.dropWhile_cons, h]

/-- Collect code lines up to the closing fence, returning them and the
lines after the fence. -/
def takeCode : List Line → List Line × List Line
  | [] => ([], [])
  | l :: ls =>
    if l == fenceLine then ([], ls)
    else (l :: (takeCode ls).1, (takeCode ls).2)

theorem takeCode_rest_len (ls : List Line) : (takeCode ls).2.length ≤ ls.length := by
  induction ls with
  | nil => simp [takeCode]
  | cons l ls ih =>
    by_cases h : l == fenceLine
    · simp [takeCode, h]
    · simp only [takeCode, h, Bool.false_eq_true, if_false]
      exact Nat.le_trans ih (Nat.le_succ _)

/-- Parse the cells of a table row body (everything after the leading
`|`): each cell is introduced by a padding space and closed by ` |`. -/
def parseCells : Line → List Line
  | ' ' :: rest =>
    match hr : rest.dropWhile (fun c => c != '|') with
    | '|' :: r => (rest.takeWhile (fun c => c != '|')).dropLast :: parseCells r
    | _ => [(rest.takeWhile (fun c => c != '|')).dropLast]
  | _ => []
termination_by l => l.length
decreasing_by
  simp_wf
  have h1 : (rest.dropWhile (fun c => c != '|')).length ≤ rest.length :=
    lenDropWhileLe _ _
  rw [hr] at h1
  simp at h1
  omega

/-- Parse a table row: a `|`-led line yields its cell list. -/
def parseRow (l : Line) : Option (List Line) :=
  match l with
  | '|' :: r => some (parseCells r)
  | _ => none

/-- Whether the line is a table separator row (all cells `---`). -/
def isSepLine (l : Line) : Bool :=
  match parseRow l with
  | some cells => cells.all (fun c => c == sepCell)
  | none => false

/-- Modelled from the spec (§4.2): recognize the block starting at a
non-blank line, returning it together with the unconsumed lines.  Fenced
code, bullet lists, headings and tables are recognized by their leading
markers, everything else is a paragraph. -/
def parseOne (l : Line) (ls : List Line) : MdBlock × List Line :=
  if headIs '`' l then
    (MdBlock.codeB (l.drop 3) (takeCode ls).1, (takeCode ls).2)
  else if isBulletLine l then
    (MdBlock.bullets (l.drop 2 :: (ls.takeWhile isBulletLine).map (fun x => x.drop 2)),
     ls.dropWhile isBulletLine)
  else if headIs '#' l then
    match l.dropWhile (fun c => c == '#') with
    | ' ' :: t => (MdBlock.heading (l.takeWhile (fun c => c == '#')).length t, ls)
    | _ => (MdBlock.para l, ls)
  else if isRowLine l then
    match ls with
    | sep :: rest2 =>
      if isSepLine sep then
        (MdBlock.table ((parseRow l).getD [])
            ((rest2.takeWhile isRowLine).map (fun r => (parseRow r).getD [])),
         rest2.dropWhile isRowLine)
      else (MdBlock.para l, ls)
    | [] => (MdBlock.para l, [])
  else (MdBlock.para l, ls)

theorem parseOne_rest_len (l : Line) (ls : List Line) :
    (parseOne l ls).2.length ≤ ls.length := by
  rw [parseOne.eq_def]
  split_ifs with h1 h2 h3 h4
  · exact takeCode_rest_len ls
  · exact lenDropWhileLe _ _
  · split
    · exact Nat.le_refl _
    · exact Nat.le_refl _
  · split
    · next sep rest2 =>
      split_ifs
      · have h5 := lenDropWhileLe isRowLine rest2
        simp only [List.length_cons]
        omega
      · exact Nat.le_refl _
    · simp
  · exact Nat.le_refl _

/-- Modelled from the spec (§4.2): parse markdown lines into the block
nodes of the supported construct subset, skipping blank lines between
blocks. -/
def parseLines : List Line → List MdBlock
  | [] => []
  | l :: ls =>
    if l.isEmpty then parseLines ls
    else (parseOne l ls).1 :: parseLines (parseOne l ls).2
termination_by ls => ls.length
decreasing_by
  all_goals simp_wf
  all_goals
    first
      | omega
      | (have h1 := parseOne_rest_len l ls; omega)

/-- A table cell may not contain the cell separator character. -/
def wfCell (c : Line) : Bool := c.all (fun ch => ch != '|')

/-- Wellformedness of a block of the supported construct subset: the side
conditions under which the canonical rendering re-parses to the same
block. -/
def wfBlock : MdBlock → Bool
  | MdBlock.heading l _ => l != 0
  | MdBlock.para t =>
    match t with
    | [] => false
    | ch :: _ => !(ch == '#' || ch == '`' || ch == '|') && !isBulletLine t
  | MdBlock.bullets its => !its.isEmpty
  | MdBlock.codeB _ code => code.all (fun l => l != fenceLine)
  | MdBlock.table h rows => h.all wfCell && rows.all (fun r => r.all wfCell)

theorem takeWhile_append_all {α : Type} (p : α → Bool) {xs : List α} (ys : List α)
    (h : ∀ x ∈ xs, p x = true) : (xs ++ ys).takeWhile p = xs ++ ys.takeWhile p := by
  induction xs with
  | nil => simp
  | cons a l ih =>
    have ha := h a (List.mem_cons_self _ _)
    simp [List.takeWhile_cons, ha, ih (fun x hx => h x (List.mem_cons_of_mem _ hx))]

theorem dropWhile_append_all {α : Type} (p : α → Bool) {xs : List α} (ys : List α)
    (h : ∀ x ∈ xs, p x = true) : (xs ++ ys).dropWhile p = ys.dropWhile p := by
  induction xs with
  | nil => simp
  | cons a l ih =>
    have ha := h a (List.mem_cons_self _ _)
    simp [List.dropWhile_cons, ha, ih (fun x hx => h x (List.mem_cons_of_mem _ hx))]

theorem takeCode_append (code : List Line) (tail : List Line)
    (h : ∀ l ∈ code, (l != fenceLine) = true) :
    takeCode (code ++ fenceLine :: tail) = (code, tail) := by
  induction code with
  | nil => simp [takeCode]
  | cons c cs ih =>
    have hc : (c == fenceLine) = false := by
      have h0 := h c (List.mem_cons_self _ _)
      simpa [bne] using h0
    simp [takeCode, hc, ih (fun x hx => h x (List.mem_cons_of_mem _ hx))]

theorem map_drop2_bullets (its : List Line) :
    ((its.map (fun i => '-' :: ' ' :: i)).map (fun x => x.drop 2)) = its := by
  induction its with
  | nil => rfl
  | cons i is ih => simp [ih]

theorem map_drop2_comp (its : List Line) :
    List.map ((fun x => List.drop 2 x) ∘ fun x => '-' :: ' ' :: x) its = its := by
  induction its with
  | nil => rfl
  | cons i is ih => simp [ih]

theorem parseCells_render (cs : List Line) (h : ∀ c ∈ cs, wfCell c = true) :
    parseCells ((cs.map (fun c => ' ' :: (c ++ [' ', '|']))).flatten) = cs := by
  induction cs with
  | nil => simp [parseCells]
  | cons c cs ih =>
    have hc : ∀ ch ∈ c, (ch != '|') = true := by
      have h0 := h c (List.mem_cons_self _ _)
      simpa [wfCell, List.all_eq_true] using h0
    have hall : ∀ x ∈ c ++ [' '], (x != '|') = true := by
      intro x hx
      rcases List.mem_append.mp hx with hx | hx
      · exact hc x hx
      · simp only [List.mem_singleton] at hx
        subst hx
        rfl
    have hrw : ((c :: cs).map (fun c => ' ' :: (c ++ [' ', '|']))).flatten =
        ' ' :: ((c ++ [' ']) ++
          '|' :: (cs.map (fun c => ' ' :: (c ++ [' ', '|']))).flatten) := by
      simp
    have hdrop : ((c ++ [' ']) ++
        '|' :: (cs.map (fun c => ' ' :: (c ++ [' ', '|']))).flatten).dropWhile
          (fun ch => ch != '|') =
        '|' :: (cs.map (fun c => ' ' :: (c ++ [' ', '|']))).flatten := by
      rw [dropWhile_append_all _ _ hall]
      simp [List.dropWhile_cons]
    have htake : ((c ++ [' ']) ++
        '|' :: (cs.map (fun c => ' ' :: (c ++ [' ', '|']))).flatten).takeWhile
          (fun ch => ch != '|') = c ++ [' '] := by
      rw [takeWhile_append_all _ _ hall]
      simp [List.takeWhile_cons]
    rw [hrw, parseCells]
    split
    · rename_i r heq
      rw [hdrop] at heq
      injection heq with h1 h2
      subst h2
      rw [htake, List.dropLast_concat,
        ih (fun x hx => h x (List.mem_cons_of_mem _ hx))]
    · rename_i hne
      exfalso
      exact hne _ hdrop

theorem parseRow_render (cs : List Line) (h : ∀ c ∈ cs, wfCell c = true) :
    parseRow (renderRow cs) = some cs := by
  simp [renderRow, parseRow, parseCells_render cs h]

theorem isRowLine_render (cs : List Line) : isRowLine (renderRow cs) = true := rfl

theorem isSepLine_render (n : Nat) :
    isSepLine (renderRow (List.replicate n sepCell)) = true := by
  have h : ∀ c ∈ List.replicate n sepCell, wfCell c = true := by
    intro c hc
    rw [List.eq_of_mem_replicate hc]
    rfl
  rw [isSepLine, parseRow_render _ h]
  simp only [List.all_eq_true]
  intro c hc
  rw [List.eq_of_mem_replicate hc]
  rfl

theorem map_parseRow_rows (rows : List (List Line))
    (h : ∀ r ∈ rows, ∀ c ∈ r, wfCell c = true) :
    (rows.map renderRow).map (fun r => (parseRow r).getD []) = rows := by
  induction rows with
  | nil => rfl
  | cons r rs ih =>
    simp [parseRow_render r (h r (List.mem_cons_self _ _)),
      ih (fun x hx => h x (List.mem_cons_of_mem _ hx))]

theorem parseLines_blank (tail : List Line) : parseLines ([] :: tail) = parseLines tail := by
  simp [parseLines]

theorem parseLines_cons (l : Line) (ls : List Line) (h : l.isEmpty = false) :
    parseLines (l :: ls) = (parseOne l ls).1 :: parseLines (parseOne l ls).2 := by
  simp [parseLines, h]

theorem parseOne_render_heading (l' : Nat) (t : Line) (ls : List Line) :
    parseOne (List.replicate (l' + 1) '#' ++ ' ' :: t) ls =
      (MdBlock.heading (l' + 1) t, ls) := by
  have hall : ∀ x ∈ List.replicate (l' + 1) '#', (x == '#') = true := by
    intro x hx
    rw [List.eq_of_mem_replicate hx]
    rfl
  have hdrop : (List.replicate (l' + 1) '#' ++ ' ' :: t).dropWhile (fun c => c == '#') =
      ' ' :: t := by
    rw [dropWhile_append_all _ _ hall]
    simp [List.dropWhile_cons]
  have htake : (List.replicate (l' + 1) '#' ++ ' ' :: t).takeWhile (fun c => c == '#') =
      List.replicate (l' + 1) '#' := by
    rw [takeWhile_append_all _ _ hall]
    simp [List.takeWhile_cons]
  have hfence : headIs '`' (List.replicate (l' + 1) '#' ++ ' ' :: t) = false := by
    simp [List.replicate_succ, headIs]
  have hbul : isBulletLine (List.replicate (l' + 1) '#' ++ ' ' :: t) = false := by
    rw [List.replicate_succ, List.cons_append]
    rfl
  have hhash : headIs '#' (List.replicate (l' + 1) '#' ++ ' ' :: t) = true := by
    rw [List.replicate_succ, List.cons_append]
    rfl
  rw [parseOne.eq_def, hfence, hbul, hhash, hdrop, htake]
  simp

theorem parseOne_render_para (t : Line) (ls : List Line)
    (h : wfBlock (MdBlock.para t) = true) :
    parseOne t ls = (MdBlock.para t, ls) := by
  obtain ⟨ch, t', rfl⟩ : ∃ ch t', t = ch :: t' := by
    cases t with
    | nil => simp [wfBlock] at h
    | cons ch t' => exact ⟨ch, t', rfl⟩
  simp only [wfBlock, Bool.and_eq_true, Bool.not_eq_true',
    Bool.or_eq_false_iff] at h
  obtain ⟨⟨⟨h1, h2⟩, h3⟩, h4⟩ := h
  rw [parseOne.eq_def]
  simp [headIs, isRowLine, h1, h2, h3, h4]

theorem parseOne_render_bullets (i : Line) (is : List Line) (tail : List Line) :
    parseOne ('-' :: ' ' :: i) (is.map (fun x => '-' :: ' ' :: x) ++ [] :: tail) =
      (MdBlock.bullets (i :: is), [] :: tail) := by
  have hall : ∀ x ∈ is.map (fun x => '-' :: ' ' :: x), isBulletLine x = true := by
    intro x hx
    obtain ⟨y, _, rfl⟩ := List.mem_map.mp hx
    rfl
  rw [parseOne.eq_def]
  rw [show headIs '`' ('-' :: ' ' :: i) = false from rfl,
    show isBulletLine ('-' :: ' ' :: i) = true from rfl]
  rw [takeWhile_append_all _ _ hall, dropWhile_append_all _ _ hall]
  simp [map_drop2_bullets, map_drop2_comp,
    show isBulletLine ([] : Line) = false from rfl,
    List.takeWhile_cons, List.dropWhile_cons]

theorem parseOne_render_code (lang : Line) (code : List Line) (tail : List Line)
    (h : ∀ l ∈ code, (l != fenceLine) = true) :
    parseOne (fenceLine ++ lang) (code ++ fenceLine :: tail) =
      (MdBlock.codeB lang code, tail) := by
  rw [parseOne.eq_def]
  rw [show headIs '`' (fenceLine ++ lang) = true from rfl]
  rw [takeCode_append code tail h]
  simp [fenceLine]

theorem parseOne_render_table (hd : List Line) (rows : List (List Line)) (tail : List Line)
    (hh : ∀ c ∈ hd, wfCell c = true) (hr : ∀ r ∈ rows, ∀ c ∈ r, wfCell c = true) :
    parseOne (renderRow hd)
      (renderRow (List.replicate hd.length sepCell) :: (rows.map renderRow ++ [] :: tail)) =
      (MdBlock.table hd rows, [] :: tail) := by
  have hrowall : ∀ x ∈ rows.map renderRow, isRowLine x = true := by
    intro x hx
    obtain ⟨y, _, rfl⟩ := List.mem_map.mp hx
    rfl
  rw [parseOne.eq_def]
  rw [show headIs '`' (renderRow hd) = false from rfl,
    show isBulletLine (renderRow hd) = false from rfl,
    show headIs '#' (renderRow hd) = false from rfl,
    show isRowLine (renderRow hd) = true from rfl]
  simp only [Bool.false_eq_true, if_false, if_true]
  rw [isSepLine_render hd.length]
  rw [takeWhile_append_all _ _ hrowall, dropWhile_append_all _ _ hrowall]
  rw [parseRow_render hd hh]
  simp [map_parseRow_rows rows hr, show isRowLine ([] : Line) = false from rfl,
    List.takeWhile_cons, List.dropWhile_cons]

/-- One rendered block followed by a blank line re-parses to exactly that
block, leaving the remaining lines untouched. -/
theorem parse_render_block (b : MdBlock) (tail : List Line) (h : wfBlock b = true) :
    parseLines (renderB b ++ [] :: tail) = b :: parseLines tail := by
  cases b with
  | heading l t =>
    obtain ⟨l', rfl⟩ : ∃ l', l = l' + 1 := by
      cases l with
      | zero => simp [wfBlock] at h
      | succ n => exact ⟨n, rfl⟩
    rw [show renderB (MdBlock.heading (l' + 1) t) ++ [] :: tail =
        (List.replicate (l' + 1) '#' ++ ' ' :: t) :: ([] :: tail) from rfl]
    rw [parseLines_cons _ _ (by simp [List.replicate_succ])]
    rw [parseOne_render_heading, parseLines_blank]
  | para t =>
    obtain ⟨ch, t', rfl⟩ : ∃ ch t', t = ch :: t' := by
      cases t with
      | nil => simp [wfBlock] at h
      | cons ch t' => exact ⟨ch, t', rfl⟩
    rw [show renderB (MdBlock.para (ch :: t')) ++ [] :: tail =
        (ch :: t') :: ([] :: tail) from rfl]
    rw [parseLines_cons _ _ (by simp)]
    rw [parseOne_render_para _ _ h, parseLines_blank]
  | bullets its =>
    obtain ⟨i, is, rfl⟩ : ∃ i is, its = i :: is := by
      cases its with
      | nil => simp [wfBlock] at h
      | cons i is => exact ⟨i, is, rfl⟩
    rw [show renderB (MdBlock.bullets (i :: is)) ++ [] :: tail =
        ('-' :: ' ' :: i) :: (is.map (fun x => '-' :: ' ' :: x) ++ [] :: tail) from by
      simp [renderB]]
    rw [parseLines_cons _ _ (by simp)]
    rw [parseOne_render_bullets, parseLines_blank]
  | codeB lang code =>
    have hcode : ∀ l ∈ code, (l != fenceLine) = true := by
      simpa [wfBlock, List.all_eq_true] using h
    rw [show renderB (MdBlock.codeB lang code) ++ [] :: tail =
        (fenceLine ++ lang) :: (code ++ fenceLine :: ([] :: tail)) from by
      simp [renderB]]
    rw [parseLines_cons _ _ (by rw [fenceLine]; rfl)]
    rw [parseOne_render_code lang code ([] :: tail) hcode, parseLines_blank]
  | table hd rows =>
    have h0 : (hd.all wfCell = true) ∧ (rows.all (fun r => r.all wfCell) = true) := by
      simpa [wfBlock, Bool.and_eq_true] using h
    have hh : ∀ c ∈ hd, wfCell c = true := by
      simpa [List.all_eq_true] using h0.1
    have hr : ∀ r ∈ rows, ∀ c ∈ r, wfCell c = true := by
      intro r hrr
      have h2 := List.all_eq_true.mp h0.2 r hrr
      simpa [List.all_eq_true] using h2
    rw [show renderB (MdBlock.table hd rows) ++ [] :: tail =
        renderRow hd :: (renderRow (List.replicate hd.length sepCell) ::
          (rows.map renderRow ++ [] :: tail)) from by
      simp [renderB]]
    rw [parseLines_cons _ _ (by rw [renderRow]; rfl)]
    rw [parseOne_render_table hd rows tail hh hr, parseLines_blank]

/-- C8: for every node sequence built from the supported construct subset
(headings, paragraphs, bullet lists, fenced code blocks, tables, with
inline content preserved verbatim) satisfying the wellformedness side
conditions, rendering it and re-parsing the resulting text yields the same
node sequence. -/
theorem C8_round_trip (bs : List MdBlock) (h : ∀ b ∈ bs, wfBlock b = true) :
    parseLines (renderDoc bs) = bs := by
  induction bs with
  | nil => simp [renderDoc, parseLines]
  | cons b bs ih =>
    have hdoc : renderDoc (b :: bs) = renderB b ++ [] :: renderDoc bs := by
      simp [renderDoc]
    rw [hdoc, parse_render_block b (renderDoc bs) (h b (List.mem_cons_self _ _)),
      ih (fun x hx => h x (List.mem_cons_of_mem _ hx))]

/-- C8 witness: a document with one block of each supported construct
round-trips. -/
theorem C8_witness :
    (∀ b ∈ [MdBlock.heading 1 ['T', 'i'], MdBlock.para ['h', 'i'],
        MdBlock.bullets [['a'], ['b', 'b']],
        MdBlock.codeB ['p', 'y'] [['x', ' ', '=', ' ', '1'], []],
        MdBlock.table [['c', '1'], ['c', '2']] [[['a'], ['b']], [['d'], ['e']]]],
      wfBlock b = true) ∧
    parseLines (renderDoc [MdBlock.heading 1 ['T', 'i'], MdBlock.para ['h', 'i'],
        MdBlock.bullets [['a'], ['b', 'b']],
        MdBlock.codeB ['p', 'y'] [['x', ' ', '=', ' ', '1'], []],
        MdBlock.table [['c', '1'], ['c', '2']] [[['a'], ['b']], [['d'], ['e']]]]) =
      [MdBlock.heading 1 ['T', 'i'], MdBlock.para ['h', 'i'],
        MdBlock.bullets [['a'], ['b', 'b']],
        MdBlock.codeB ['p', 'y'] [['x', ' ', '=', ' ', '1'], []],
        MdBlock.table [['c', '1'], ['c', '2']] [[['a'], ['b']], [['d'], ['e']]]] :=
  ⟨by decide, C8_round_trip _ (by decide)⟩

end Meili
